import Mathlib

/-!
Verification of the receipt-field extraction engine (`parser_receipt.py`).

The Python source is shallowly embedded: text is `List Char`, Python floats
are modelled as exact rationals `ℚ`, fallible parsing returns `Option`, and
each stage of `parse_receipt_fields` becomes a pure function from the results
of its regex matches to the produced fields and warnings.
-/

/-- Metadata values that appear in warnings and fields. -/
inductive MVal where
  | str (s : List Char)
  | num (q : ℚ)
  | qs (l : List ℚ)
  | strs (l : List String)
  | lns (l : List (List Char))
deriving DecidableEq

/-- A diagnostic warning, mirroring the dicts built by `add_warning`;
`meta = []` models an absent `meta` key. -/
structure Warning where
  code : String
  severity : String
  message : String
  wmeta : List (String × MVal)
deriving DecidableEq

/-- A detected field, mirroring the dicts built by `_field`. -/
structure FieldRec (α : Type) where
  value : α
  confidence : ℚ
  source : String
deriving DecidableEq

/-- Python's `round` (banker's rounding, half-to-even) on an exact rational.
When the fractional part is exactly 1/2 the even neighbour is chosen;
otherwise it agrees with rounding half away from the smaller side. -/
def pyRound (q : ℚ) : ℤ :=
  if Int.fract q = 1/2 then 2 * round (q / 2) else round q

/-- `round(x, 2)` from Python, modelled exactly on `ℚ`. -/
def round2 (q : ℚ) : ℚ := (pyRound (q * 100) : ℚ) / 100

/-- `_field(value, confidence, source)`: builds a field dict, rounding the
confidence to two decimals. -/
def _field {α : Type} (value : α) (confidence : ℚ) (source : String) : FieldRec α :=
  ⟨value, round2 confidence, source⟩

/-! ## Normalizer (`_clean`) -/

/-- Characters matched by the regex class `[ \t]`. -/
def isSpTab (c : Char) : Bool := c == ' ' || c == '\t'

/-- The newline character test used by `\n{2,}`. -/
def isNlChar (c : Char) : Bool := c == '\n'

/-- Python `str.strip()` whitespace (ASCII part). -/
def isPyWs (c : Char) : Bool :=
  c == ' ' || c == '\t' || c == '\n' || c == '\r' || c == '\x0b' || c == '\x0c'

/-- `text.replace("\r", "\n")`. -/
def replaceCR (l : List Char) : List Char :=
  l.map (fun c => if c = '\r' then '\n' else c)

/-- `re.sub(p+, rep, text)` for a character class `p`: every maximal run of
characters satisfying `p` is replaced by the single character `rep`.
Instantiated with `isSpTab, ' '` for `[ \t]+ → " "` and with `isNlChar, '\n'`
for `\n{2,} → "\n"` (a run of one newline is left unchanged, which the
collapse also does since `rep = '\n'`). -/
def collapseRuns (p : Char → Bool) (rep : Char) : List Char → List Char
  | [] => []
  | [c] => [if p c then rep else c]
  | a :: b :: cs =>
    if p a && p b then collapseRuns p rep (b :: cs)
    else (if p a then rep else a) :: collapseRuns p rep (b :: cs)

/-- Python `str.strip()`. -/
def pyStrip (l : List Char) : List Char :=
  ((l.dropWhile isPyWs).reverse.dropWhile isPyWs).reverse

/-- `_clean`: normalize OCR output. -/
def _clean (l : List Char) : List Char :=
  pyStrip (collapseRuns isNlChar '\n' (collapseRuns isSpTab ' ' (replaceCR l)))

/-! ## Amount parsing (`_parse_tr_amount`) -/

/-- Python `int` on a string of ASCII digits. -/
def digitsToNat (l : List Char) : Nat :=
  l.foldl (fun n c => 10 * n + (c.toNat - 48)) 0

/-- Python `float()` restricted to the strings that can reach it inside
`_parse_tr_amount`: sequences of ASCII digits and periods.  Such a string
parses iff it has at most one period and at least one digit; the value is
integer part plus fractional digits scaled down. -/
def pyFloatDots (l : List Char) : Option ℚ :=
  if (l.all fun c => c.isDigit || c == '.') ∧ l.count '.' ≤ 1 ∧ l.any Char.isDigit then
    let ip := l.takeWhile fun c => ¬ (c = '.')
    let fp := (l.dropWhile fun c => ¬ (c = '.')).drop 1
    some ((digitsToNat ip : ℚ) + (digitsToNat fp : ℚ) / 10 ^ fp.length)
  else none

/-- `_parse_tr_amount`: Turkish amount parsing.  A pure run of 5–9 digits has
its last two digits read as decimal cents; otherwise non-`[0-9.,]` characters
are stripped, periods (thousands separators) dropped, the comma turned into a
decimal point, and the result parsed as a float; `none` models both `None`
returns and the caught `ValueError`. -/
def _parse_tr_amount (s : List Char) : Option ℚ :=
  if s = [] then none
  else
    let s1 := pyStrip s
    let fallback : Option ℚ :=
      let s2 := s1.filter fun c => c.isDigit || c == '.' || c == ','
      if s2 = [] then none
      else pyFloatDots ((s2.filter fun c => ¬ (c = '.')).map fun c => if c = ',' then '.' else c)
    if (s1.all Char.isDigit) ∧ 5 ≤ s1.length ∧ s1.length ≤ 9 then
      match pyFloatDots ((s1.take (s1.length - 2)) ++ '.' :: s1.drop (s1.length - 2)) with
      | some v => some v
      | none => fallback
    else fallback

/-- A Python runtime value, used to model that `_parse_tr_amount` is called
on untrusted (dynamically typed) data. -/
inductive PyVal where
  | pstr (s : List Char)
  | pint (n : ℤ)
  | pfloat (q : ℚ)
  | pnone
deriving DecidableEq

/-- Python truthiness for the values above. -/
def pyTruthy : PyVal → Bool
  | .pstr s => !s.isEmpty
  | .pint n => n != 0
  | .pfloat q => q != 0
  | .pnone => false

/-- `_parse_tr_amount` under Python's dynamic typing: a falsy argument takes
the early `return None`; a truthy non-string reaches `s.strip()` and raises
`AttributeError`, which no handler in the function catches. -/
def pyParseTrAmountDyn : PyVal → Except String (Option ℚ)
  | .pstr s => .ok (_parse_tr_amount s)
  | v => if pyTruthy v then .error "AttributeError" else .ok none

/-! ## Helper lemmas: list scanning -/

theorem dropWhile_eq_self_of_forall {p : Char → Bool} {l : List Char}
    (h : ∀ c ∈ l, p c = false) : l.dropWhile p = l := by
  cases l with
  | nil => rfl
  | cons a t => simp [List.dropWhile_cons, h a (by simp)]

theorem takeWhile_eq_self_of_forall {p : Char → Bool} {l : List Char}
    (h : ∀ c ∈ l, p c = true) : l.takeWhile p = l := by
  induction l with
  | nil => rfl
  | cons a t ih =>
    simp only [List.takeWhile_cons, h a (by simp), if_true, List.cons.injEq, true_and]
    exact ih fun c hc => h c (by simp [hc])

theorem dropWhile_eq_nil_of_forall {p : Char → Bool} {l : List Char}
    (h : ∀ c ∈ l, p c = true) : l.dropWhile p = [] := by
  induction l with
  | nil => rfl
  | cons a t ih =>
    simp only [List.dropWhile_cons, h a (by simp), if_true]
    exact ih fun c hc => h c (by simp [hc])

theorem takeWhile_append_cons {p : Char → Bool} {xs ys : List Char} {y : Char}
    (hx : ∀ x ∈ xs, p x = true) (hy : p y = false) :
    (xs ++ y :: ys).takeWhile p = xs := by
  induction xs with
  | nil => simp [List.takeWhile_cons, hy]
  | cons a t ih =>
    simp [List.takeWhile_cons, hx a (by simp)]
    exact ih fun x hxm => hx x (by simp [hxm])

theorem dropWhile_append_cons {p : Char → Bool} {xs ys : List Char} {y : Char}
    (hx : ∀ x ∈ xs, p x = true) (hy : p y = false) :
    (xs ++ y :: ys).dropWhile p = y :: ys := by
  induction xs with
  | nil => simp [List.dropWhile_cons, hy]
  | cons a t ih =>
    simp [List.dropWhile_cons, hx a (by simp)]
    exact ih fun x hxm => hx x (by simp [hxm])

theorem map_eq_self_of_forall {f : Char → Char} {l : List Char}
    (h : ∀ c ∈ l, f c = c) : l.map f = l := by
  induction l with
  | nil => rfl
  | cons a t ih =>
    simp [h a (by simp)]
    exact ih fun c hc => h c (by simp [hc])

theorem pyStrip_eq_self_of_forall {l : List Char}
    (h : ∀ c ∈ l, isPyWs c = false) : pyStrip l = l := by
  unfold pyStrip
  rw [dropWhile_eq_self_of_forall h,
      dropWhile_eq_self_of_forall (fun c hc => h c (List.mem_reverse.mp hc)),
      List.reverse_reverse]

theorem isPyWs_eq_false_of_isDigit {c : Char} (h : c.isDigit = true) :
    isPyWs c = false := by
  by_contra hw
  have hw' : isPyWs c = true := by revert hw; cases isPyWs c <;> simp
  simp only [isPyWs, Bool.or_eq_true, beq_iff_eq] at hw'
  rcases hw' with ((((h1 | h1) | h1) | h1) | h1) | h1 <;> subst h1 <;> simp_all

theorem ne_dot_of_isDigit {c : Char} (h : c.isDigit = true) : c ≠ '.' := by
  intro he; subst he; simp_all

theorem ne_comma_of_isDigit {c : Char} (h : c.isDigit = true) : c ≠ ',' := by
  intro he; subst he; simp_all

/-! ## Amount-parser lemmas -/

theorem digit_run_pyFloatDots {s : List Char} (hd : ∀ c ∈ s, c.isDigit = true)
    (h5 : 5 ≤ s.length) :
    pyFloatDots ((s.take (s.length - 2)) ++ '.' :: s.drop (s.length - 2)) =
      some ((digitsToNat (s.take (s.length - 2)) : ℚ) +
        (digitsToNat (s.drop (s.length - 2)) : ℚ) / 10 ^ (s.drop (s.length - 2)).length) := by
  have hdt : ∀ c ∈ s.take (s.length - 2), c.isDigit = true :=
    fun c hc => hd c (List.mem_of_mem_take hc)
  have hdd : ∀ c ∈ s.drop (s.length - 2), c.isDigit = true :=
    fun c hc => hd c (List.mem_of_mem_drop hc)
  have hcond : ((s.take (s.length - 2)) ++ '.' :: s.drop (s.length - 2)).all
      (fun c => c.isDigit || c == '.') = true := by
    simp only [List.all_append, List.all_cons, Bool.and_eq_true, List.all_eq_true]
    refine ⟨fun c hc => by simp [hdt c hc], by simp, fun c hc => by simp [hdd c hc]⟩
  have hcount : ((s.take (s.length - 2)) ++ '.' :: s.drop (s.length - 2)).count '.' ≤ 1 := by
    rw [List.count_append, List.count_cons]
    have h1 : (s.take (s.length - 2)).count '.' = 0 :=
      List.count_eq_zero.mpr fun hm => ne_dot_of_isDigit (hdt '.' hm) rfl
    have h2 : (s.drop (s.length - 2)).count '.' = 0 :=
      List.count_eq_zero.mpr fun hm => ne_dot_of_isDigit (hdd '.' hm) rfl
    simp [h1, h2]
  have hany : ((s.take (s.length - 2)) ++ '.' :: s.drop (s.length - 2)).any Char.isDigit = true := by
    have hne : s.take (s.length - 2) ≠ [] := by
      have : (s.take (s.length - 2)).length = s.length - 2 := by
        rw [List.length_take]; omega
      intro hnil; rw [hnil] at this; simp at this; omega
    obtain ⟨c, hc⟩ := List.exists_mem_of_ne_nil _ hne
    simp only [List.any_append, Bool.or_eq_true, List.any_eq_true]
    exact Or.inl ⟨c, hc, hdt c hc⟩
  have hip : ((s.take (s.length - 2)) ++ '.' :: s.drop (s.length - 2)).takeWhile
      (fun c => ¬ (c = '.')) = s.take (s.length - 2) :=
    takeWhile_append_cons (fun x hx => by simp [ne_dot_of_isDigit (hdt x hx)]) (by simp)
  have hfp : ((s.take (s.length - 2)) ++ '.' :: s.drop (s.length - 2)).dropWhile
      (fun c => ¬ (c = '.')) = '.' :: s.drop (s.length - 2) :=
    dropWhile_append_cons (fun x hx => by simp [ne_dot_of_isDigit (hdt x hx)]) (by simp)
  unfold pyFloatDots
  rw [if_pos ⟨hcond, hcount, hany⟩]
  simp only [hip, hfp, List.drop_succ_cons, List.drop_zero]

/-- Amended C3, general part: on a pure run of 5–9 digits `_parse_tr_amount`
reads the final two digits as decimal cents. -/
theorem parse_tr_amount_digit_run (s : List Char)
    (hd : ∀ c ∈ s, c.isDigit = true) (h5 : 5 ≤ s.length) (h9 : s.length ≤ 9) :
    _parse_tr_amount s =
      some ((digitsToNat (s.take (s.length - 2)) : ℚ) +
            (digitsToNat (s.drop (s.length - 2)) : ℚ) / 100) := by
  have hne : s ≠ [] := by intro h; rw [h] at h5; simp at h5
  have hstrip : pyStrip s = s :=
    pyStrip_eq_self_of_forall fun c hc => isPyWs_eq_false_of_isDigit (hd c hc)
  have hall : s.all Char.isDigit = true := List.all_eq_true.mpr hd
  have hlen2 : (s.drop (s.length - 2)).length = 2 := by
    rw [List.length_drop]; omega
  unfold _parse_tr_amount
  rw [if_neg (by simp [hne]), hstrip]
  rw [if_pos ⟨hall, h5, h9⟩]
  rw [digit_run_pyFloatDots hd h5, hlen2]
  norm_num

/-- A nonempty pure digit run outside the 5–9 length window is parsed by the
separator path, which reads it as a plain integer. -/
theorem parse_tr_amount_digit_plain (s : List Char) (hne : s ≠ [])
    (hd : ∀ c ∈ s, c.isDigit = true) (hlen : s.length < 5 ∨ 9 < s.length) :
    _parse_tr_amount s = some ((digitsToNat s : ℚ)) := by
  have hstrip : pyStrip s = s :=
    pyStrip_eq_self_of_forall fun c hc => isPyWs_eq_false_of_isDigit (hd c hc)
  have hfilter : (s.filter fun c => c.isDigit || c == '.' || c == ',') = s :=
    List.filter_eq_self.mpr fun c hc => by simp [hd c hc]
  have hfilter2 : (s.filter fun c => ¬ (c = '.')) = s :=
    List.filter_eq_self.mpr fun c hc => by simp [ne_dot_of_isDigit (hd c hc)]
  have hmap : (s.map fun c => if c = ',' then '.' else c) = s :=
    map_eq_self_of_forall fun c hc => by simp [ne_comma_of_isDigit (hd c hc)]
  have hcond : pyFloatDots s = some ((digitsToNat s : ℚ)) := by
    have hall : s.all (fun c => c.isDigit || c == '.') = true :=
      List.all_eq_true.mpr fun c hc => by simp [hd c hc]
    have hcount : s.count '.' = 0 :=
      List.count_eq_zero.mpr fun hm => ne_dot_of_isDigit (hd '.' hm) rfl
    have hany : s.any Char.isDigit = true := by
      obtain ⟨c, hc⟩ := List.exists_mem_of_ne_nil _ hne
      exact List.any_eq_true.mpr ⟨c, hc, hd c hc⟩
    have hip : s.takeWhile (fun c => ¬ (c = '.')) = s :=
      takeWhile_eq_self_of_forall fun c hc => by simp [ne_dot_of_isDigit (hd c hc)]
    have hfp : s.dropWhile (fun c => ¬ (c = '.')) = [] :=
      dropWhile_eq_nil_of_forall fun c hc => by simp [ne_dot_of_isDigit (hd c hc)]
    unfold pyFloatDots
    rw [if_pos ⟨hall, by omega, hany⟩]
    simp only [hip, hfp, List.drop_nil]
    norm_num [digitsToNat]
  unfold _parse_tr_amount
  rw [if_neg (by simp [hne]), hstrip]
  rw [if_neg (by rintro ⟨-, h5, h9⟩; omega)]
  simp only [hfilter, hfilter2, hmap]
  rw [if_neg (by simp [hne]), hcond]

/-- C3 witness: `"115000"` parses to `1150.00`, by the digit-run rule. -/
theorem parse_tr_amount_digit_run_witness :
    _parse_tr_amount ("115000".data) = some 1150 := by
  have h := parse_tr_amount_digit_run ("115000".data) (by decide) (by decide) (by decide)
  rw [h]
  rw [show digitsToNat (("115000".data).take (("115000".data).length - 2)) = 1150 from by decide]
  rw [show digitsToNat (("115000".data).drop (("115000".data).length - 2)) = 0 from by decide]
  norm_num

/-- C3 counterexample: `"6900"` is only 4 digits long, so it does not take the
cents rule: it parses to `6900.00`, not to `69.00` as the claim states. -/
theorem parse_tr_amount_6900_counterexample :
    _parse_tr_amount ("6900".data) = some 6900 ∧ (6900 : ℚ) ≠ 69 := by
  constructor
  · have h := parse_tr_amount_digit_plain ("6900".data) (by decide) (by decide) (by decide)
    rw [h, show digitsToNat ("6900".data) = 6900 from by decide]
    norm_num
  · norm_num

/-- C4: the claim says `_parse_tr_amount` never propagates an exception, even
for non-string values; but a truthy non-string reaches `s.strip()` and raises
`AttributeError`.  Only falsy values (None, 0, "") take the early `None`
return, and actual strings never raise. -/
theorem parse_tr_amount_nonstring_raises :
    pyParseTrAmountDyn (.pint 123) = .error "AttributeError" ∧
    pyParseTrAmountDyn .pnone = .ok none ∧
    pyParseTrAmountDyn (.pint 0) = .ok none ∧
    pyParseTrAmountDyn (.pstr []) = .ok none := by
  refine ⟨rfl, rfl, rfl, rfl⟩

/-! ## Document-type classification (`detect_doc_type`) -/

/-- Python `in` on strings: contiguous-substring containment. -/
def csub (k t : List Char) : Bool := decide (k <:+: t)

/-- Python `str.lower()` for one character, covering ASCII and the Turkish
uppercase letters that occur in receipt text; `'İ'` lowers to a two-character
sequence, all other characters map one-to-one. -/
def pyLowerChar (c : Char) : List Char :=
  if 'A' ≤ c ∧ c ≤ 'Z' then [Char.ofNat (c.toNat + 32)]
  else if c = 'Ç' then ['ç']
  else if c = 'Ğ' then ['ğ']
  else if c = 'İ' then ['i', '̇']
  else if c = 'Ö' then ['ö']
  else if c = 'Ş' then ['ş']
  else if c = 'Ü' then ['ü']
  else [c]

/-- Python `str.lower()` on the whole text. -/
def pyLower (l : List Char) : List Char := l.flatMap pyLowerChar

/-- The fixed keyword-signature table of `detect_doc_type`, in source order. -/
def signatures : List (String × List (List Char)) :=
  [("e_fatura", ["gib".data, "etn".data, "vergiler dahil toplam tutar".data, "senaryo".data,
                 "fatura no".data, "vkn".data, "mal hizmet toplam tutar".data]),
   ("pos_slip", ["pos".data, "slip".data, "onay kodu".data, "provizyon".data, "terminal".data,
                 "kart no".data, "işlem no".data]),
   ("market_fis", ["fiş".data, "fis".data, "kasa".data, "kasiyer".data, "toplam".data,
                   "kdv".data, "para üstü".data, "para ustu".data, "indirim".data]),
   ("restaurant_fis", ["masa".data, "adisyon".data, "servis".data, "garson".data, "kuver".data]),
   ("akaryakit_fis", ["litre".data, "pompa".data, "akaryakıt".data, "akaryakit".data,
                      "istasyon".data, "nozzle".data])]

/-- Keyword hits of one signature entry against the lowered text. -/
def sigScore (t : List Char) (pr : String × List (List Char)) : Nat :=
  ((pr.2).filter fun k => csub k t).length

/-- The `for doc_type, keys in signatures.items()` loop with its mutable
`best_type / best_score / matched` accumulator. -/
def detectGo (t : List Char) (acc : String × Nat × List (List Char)) :
    List (String × List (List Char)) → String × Nat × List (List Char)
  | [] => acc
  | pr :: rest =>
    let hits := (pr.2).filter fun k => csub k t
    if hits.length > acc.2.1 then detectGo t (pr.1, hits.length, hits) rest
    else detectGo t acc rest

/-- The result dict of `detect_doc_type`. -/
structure DocTypeRes where
  value : String
  confidence : ℚ
  source : String
  matched : List (List Char)
deriving DecidableEq

/-- The step function mapping the winning hit count to a confidence. -/
def stepConf (n : Nat) : ℚ :=
  if n = 0 then 0.30 else if n = 1 then 0.55 else if n = 2 then 0.70 else 0.90

/-- `detect_doc_type`: keyword-signature classification. -/
def detect_doc_type (text : List Char) : DocTypeRes :=
  let t := pyLower text
  let b := detectGo t ("unknown", 0, []) signatures
  ⟨b.1, stepConf b.2.1, "signature_keywords", b.2.2.take 5⟩

/-- The `doc_type` step of `parse_receipt_fields`: store the classification
and warn when the winning type is `unknown`. -/
def docTypeUnknownWarn (matched : List (List Char)) : Warning :=
  ⟨"doc_type_unknown", "medium", "Belge tipi tespit edilemedi (unknown)",
   [("matched_signatures", .lns matched)]⟩

def docTypeStage (text : List Char) : DocTypeRes × List Warning :=
  let d := detect_doc_type text
  (d, if d.value = "unknown" then [docTypeUnknownWarn d.matched] else [])

/-- Specification-side classifier, written from the claim: count keyword hits
per type, pick the first type attaining the maximum count (zero hits
everywhere keeps "unknown"), apply the confidence step function, cap the
matched list at 5. -/
def detectSpec (text : List Char) : DocTypeRes :=
  let t := pyLower text
  let M := (signatures.map (sigScore t)).foldr max 0
  if M = 0 then ⟨"unknown", stepConf 0, "signature_keywords", []⟩
  else
    match signatures.find? (fun pr => sigScore t pr == M) with
    | some pr => ⟨pr.1, stepConf M, "signature_keywords", ((pr.2).filter fun k => csub k t).take 5⟩
    | none => ⟨"unknown", stepConf 0, "signature_keywords", []⟩

theorem foldr_max_zero_or_mem (ns : List Nat) :
    ns.foldr max 0 = 0 ∨ ns.foldr max 0 ∈ ns := by
  induction ns with
  | nil => exact Or.inl rfl
  | cons n t ih =>
    rcases Nat.le_total n (t.foldr max 0) with h | h
    · rw [List.foldr_cons, Nat.max_eq_right h]
      rcases ih with h0 | hm
      · rw [h0]; omega
      · exact Or.inr (List.mem_cons_of_mem _ hm)
    · rw [List.foldr_cons, Nat.max_eq_left h]
      exact Or.inr (List.mem_cons_self _ _)

theorem detectGo_eq (t : List Char) (l : List (String × List (List Char)))
    (acc : String × Nat × List (List Char)) :
    detectGo t acc l =
      if (l.map (sigScore t)).foldr max 0 ≤ acc.2.1 then acc
      else
        match l.find? (fun pr => sigScore t pr == (l.map (sigScore t)).foldr max 0) with
        | some pr => (pr.1, sigScore t pr, (pr.2).filter fun k => csub k t)
        | none => acc := by
  induction l generalizing acc with
  | nil => simp [detectGo]
  | cons pr rest ih =>
    have hsp : ((pr.2).filter fun k => csub k t).length = sigScore t pr := rfl
    by_cases hgt : ((pr.2).filter fun k => csub k t).length > acc.2.1
    · rw [show detectGo t acc (pr :: rest) = detectGo t (pr.1, ((pr.2).filter fun k => csub k t).length, ((pr.2).filter fun k => csub k t)) rest from by
        simp [detectGo, hgt]]
      rw [ih]
      rcases Nat.le_total ((rest.map (sigScore t)).foldr max 0) (sigScore t pr) with hM | hM
      · rw [if_pos (by simpa [hsp] using hM)]
        rw [if_neg (by simp only [List.map_cons, List.foldr_cons]; omega)]
        rw [List.find?_cons]
        have : (sigScore t pr == ((pr :: rest).map (sigScore t)).foldr max 0) = true := by
          simp only [List.map_cons, List.foldr_cons, beq_iff_eq]
          omega
        rw [this]
        rfl
      · by_cases heq : (rest.map (sigScore t)).foldr max 0 = sigScore t pr
        · rw [if_pos (by simpa [hsp] using le_of_eq heq)]
          rw [if_neg (by simp only [List.map_cons, List.foldr_cons]; omega)]
          rw [List.find?_cons]
          have : (sigScore t pr == ((pr :: rest).map (sigScore t)).foldr max 0) = true := by
            simp only [List.map_cons, List.foldr_cons, beq_iff_eq]
            omega
          rw [this]
          rfl
        · have hlt : sigScore t pr < (rest.map (sigScore t)).foldr max 0 := by omega
          rw [if_neg (by simp only [hsp]; omega)]
          rw [if_neg (by simp only [List.map_cons, List.foldr_cons]; omega)]
          have hmax : ((pr :: rest).map (sigScore t)).foldr max 0
              = (rest.map (sigScore t)).foldr max 0 := by
            simp only [List.map_cons, List.foldr_cons]; omega
          rw [List.find?_cons]
          have hfalse : (sigScore t pr == ((pr :: rest).map (sigScore t)).foldr max 0) = false := by
            simp only [hmax, beq_eq_false_iff_ne]
            omega
          rw [hfalse, hmax]
          rcases hfind : rest.find? (fun pr' => sigScore t pr' == (rest.map (sigScore t)).foldr max 0) with - | pr'
          · exfalso
            rcases foldr_max_zero_or_mem (rest.map (sigScore t)) with h0 | hm
            · omega
            · obtain ⟨pr', hpr', hval⟩ := List.mem_map.mp hm
              have := List.find?_eq_none.mp hfind pr' hpr'
              simp [hval] at this
          · simp
    · rw [show detectGo t acc (pr :: rest) = detectGo t acc rest from by
        simp [detectGo, hgt]]
      rw [ih]
      by_cases hM : (rest.map (sigScore t)).foldr max 0 ≤ acc.2.1
      · rw [if_pos hM]
        rw [if_pos (by simp only [List.map_cons, List.foldr_cons]; omega)]
      · rw [if_neg hM]
        rw [if_neg (by simp only [List.map_cons, List.foldr_cons]; omega)]
        have hmax : ((pr :: rest).map (sigScore t)).foldr max 0
            = (rest.map (sigScore t)).foldr max 0 := by
          simp only [List.map_cons, List.foldr_cons]
          have : sigScore t pr ≤ acc.2.1 := by rw [← hsp]; omega
          omega
        rw [List.find?_cons]
        have hfalse : (sigScore t pr == ((pr :: rest).map (sigScore t)).foldr max 0) = false := by
          simp only [hmax, beq_eq_false_iff_ne]
          have : sigScore t pr ≤ acc.2.1 := by rw [← hsp]; omega
          omega
        rw [hfalse, hmax]

/-- C6: `detect_doc_type` counts case-insensitive keyword hits per type,
selects the strictly-highest count with first-seen tie-break ("unknown" on
zero hits everywhere), applies the step confidence 0/1/2/3+ → 0.30/0.55/
0.70/0.90, caps the matched-keyword list at 5; and the caller adds a
`doc_type_unknown` medium warning exactly when the winning type is
"unknown". -/
theorem detect_doc_type_spec (text : List Char) :
    detect_doc_type text = detectSpec text ∧
    (docTypeUnknownWarn (detect_doc_type text).matched ∈ (docTypeStage text).2 ↔
      (detectSpec text).value = "unknown") ∧
    (docTypeStage text).1 = detect_doc_type text := by
  have hmain : detect_doc_type text = detectSpec text := by
    unfold detect_doc_type detectSpec
    dsimp only
    rw [detectGo_eq]
    by_cases hM : (signatures.map (sigScore (pyLower text))).foldr max 0 = 0
    · rw [if_pos (show (signatures.map (sigScore (pyLower text))).foldr max 0 ≤
          ("unknown", 0, ([] : List (List Char))).2.1 by rw [hM]), if_pos hM]
      rfl
    · rw [if_neg (by simpa using hM), if_neg hM]
      rcases hfind : signatures.find?
          (fun pr => sigScore (pyLower text) pr ==
            (signatures.map (sigScore (pyLower text))).foldr max 0) with - | pr
      · rfl
      · have := List.find?_some hfind
        have hval : sigScore (pyLower text) pr
            = (signatures.map (sigScore (pyLower text))).foldr max 0 := by
          simpa using this
        simp only [hval]
  refine ⟨hmain, ?_, rfl⟩
  unfold docTypeStage
  rw [hmain]
  by_cases hu : (detectSpec text).value = "unknown"
  · simp [hu]
  · simp [hu]

/-! ## Line helpers (`_find_lines_containing_amount`, `_find_lines_containing_keywords`) -/

/-- Python `text.split("\n")`. -/
def splitNL : List Char → List (List Char)
  | [] => [[]]
  | c :: cs =>
    if c = '\n' then [] :: splitNL cs
    else
      match splitNL cs with
      | [] => [[c]]
      | h :: t => (c :: h) :: t

/-- `[ln.strip() for ln in text.split("\n") if ln.strip()]`. -/
def pyLines (text : List Char) : List (List Char) :=
  ((splitNL text).map pyStrip).filter fun l => !l.isEmpty

/-- `str(n)` for the integer amount. -/
def intDigits (n : ℤ) : List Char :=
  if n < 0 then '-' :: Nat.toDigits 10 n.natAbs else Nat.toDigits 10 n.natAbs

/-- Insert a separator after every group of three digits, working on the
reversed digit list. -/
def group3R : List Char → List Char
  | a :: b :: c :: d :: rest => a :: b :: c :: '.' :: group3R (d :: rest)
  | l => l

/-- `f"{n:,}".replace(",", ".")`: thousands grouping with periods. -/
def groupDots (n : ℤ) : List Char :=
  if n < 0 then '-' :: (group3R (Nat.toDigits 10 n.natAbs).reverse).reverse
  else (group3R (Nat.toDigits 10 n.natAbs).reverse).reverse

/-- `_find_lines_containing_amount`: up to `maxLines` nonempty stripped lines
containing a textual variant of the rounded amount. -/
def _find_lines_containing_amount (text : List Char) (amount : ℚ) (maxLines : Nat) :
    List (List Char) :=
  let amtInt := pyRound amount
  let variants : List (List Char) :=
    [intDigits amtInt, groupDots amtInt, groupDots amtInt ++ ",00".data,
     intDigits amtInt ++ ",00".data]
  ((pyLines text).filter fun ln => variants.any fun v => csub v ln).take maxLines

/-- `_find_lines_containing_keywords`: up to `maxLines` nonempty stripped
lines containing any of the lowered keywords. -/
def _find_lines_containing_keywords (text : List Char) (keywords : List (List Char))
    (maxLines : Nat) : List (List Char) :=
  let kwLower := keywords.map pyLower
  ((pyLines text).filter fun ln => kwLower.any fun k => csub k (pyLower ln)).take maxLines

/-! ## Field stages of `parse_receipt_fields`

Each stage takes the outcome of its regex search (`_find_first` results) as
an explicit argument and returns the field it stores plus the warnings it
appends, in order. -/

/-- TCKN stage (source lines 285–295): `m` is the result of
`_find_first(r"\bTCKN[: ]*\s*(\d{11})\b", text)`. -/
def tcknStage (m : Option (List Char)) : Option (FieldRec (List Char)) × List Warning :=
  match m with
  | none => (none, [])
  | some s =>
    if !s.isEmpty && !(s.head? == some '0') then
      (some (_field s 0.70 "keyword_tckn"), [])
    else if !s.isEmpty then
      (none, [⟨"tckn_suspect", "medium", "TCKN şüpheli görünüyor", [("tckn", .str s)]⟩])
    else (none, [])

/-- Date stage (source lines 322–361): `o1, o2, o3` are the global matches of
the three positional patterns in priority order, `olab` the label-proximity
fallback result of `_extract_date_by_label`. -/
def dateStage (text : List Char) (o1 o2 o3 olab : Option (List Char)) :
    Option (FieldRec (List Char)) × List Warning :=
  match o1, o2, o3 with
  | some d, _, _ => (some (_field d 0.75 "pattern_date_dd.mm.yyyy"), [])
  | none, some d, _ => (some (_field d 0.75 "pattern_date_yyyy-mm-dd"), [])
  | none, none, some d => (some (_field d 0.75 "pattern_date_dd.mm.yy"), [])
  | none, none, none =>
    match olab with
    | some d => (some (_field d 0.75 "label_based_date"), [])
    | none =>
      (none,
       [⟨"date_not_found", "high", "Belge tarihi bulunamadı",
         [("tried_patterns", .strs ["dd.mm.yyyy", "yyyy-mm-dd", "dd.mm.yy"]),
          ("hint_lines", .lns (_find_lines_containing_keywords text
            ["tarih".data, "düzenleme".data, "duzenleme".data, "düzenlenme".data,
             "duzenlenme".data, "belge".data, "date".data] 5))]⟩])

/-- Total stage (source lines 367–403): `matched` is the first successful
labeled-pattern capture (or `none` when neither labeled pattern matched),
`amounts` the candidate pool. -/
def totalStage (text : List Char) (matched : Option (List Char)) (amounts : List ℚ) :
    Option (FieldRec ℚ) × List Warning :=
  let total_incl : Option ℚ :=
    match matched with
    | some s => _parse_tr_amount s
    | none => none
  match total_incl with
  | some v => (some (_field v 0.90 "keyword_total"), [])
  | none =>
    match amounts with
    | [] => (none, [⟨"total_not_found", "high", "Toplam tutar bulunamadı", []⟩])
    | c :: cs =>
      let selected := cs.foldl max c
      (some (_field selected 0.55 "heuristic_max_amount"),
       [⟨"total_fallback_max_amount", "medium", "Toplam tutar max(amounts) ile seçildi",
         [("amount_candidates", .qs (c :: cs)), ("selected_total", .num selected),
          ("evidence_lines", .lns (_find_lines_containing_amount text selected 3))]⟩])

/-- Consistency stage (source lines 445–461), applied when the three amount
fields are as extracted so far; returns the possibly boosted fields and the
warnings appended. -/
def consistencyStage (sub vat tot : Option (FieldRec ℚ)) :
    Option (FieldRec ℚ) × Option (FieldRec ℚ) × Option (FieldRec ℚ) × List Warning :=
  match sub, vat, tot with
  | some sf, some vf, some tf =>
    if |sf.value + vf.value - tf.value| ≤ max 1 (tf.value * 0.01) then
      (some { sf with confidence := min 1 (sf.confidence + 0.10) },
       some { vf with confidence := min 1 (vf.confidence + 0.10) },
       some { tf with confidence := min 1 (tf.confidence + 0.15) }, [])
    else
      (some sf, some vf, some tf,
       [⟨"amounts_inconsistent", "high", "Ara toplam + KDV toplamı genel toplam ile uyuşmuyor",
         [("subtotal", .num sf.value), ("vat", .num vf.value), ("total", .num tf.value)]⟩])
  | s, v, t => (s, v, t, [])

/-- Per-warning penalty weight of the scoring loop. -/
def sevPenalty (w : Warning) : ℚ :=
  if w.severity = "high" then 0.20
  else if w.severity = "medium" then 0.10
  else if w.severity = "low" then 0.05
  else 0

/-- The low-confidence warning appended by the scoring stage. -/
def lowConfWarn (oc : ℚ) : Warning :=
  ⟨"overall_confidence_low", "medium", "Genel güven skoru düşük",
   [("overall_confidence", .num oc)]⟩

/-- Inputs of the scoring stage: the stored confidences of the three weighted
fields (absent fields are `none`) and the warnings accumulated so far. -/
structure ScoreState where
  totalConf : Option ℚ
  dateConf : Option ℚ
  vknConf : Option ℚ
  warnings : List Warning

/-- Scoring stage (source lines 469–497): weighted sum of present fields,
warning penalty, floor at 0, round to two decimals, then append
`overall_confidence_low` when the rounded score is below 0.60. -/
def scoringStage (st : ScoreState) : ℚ × List Warning :=
  let score0 :=
    (match st.totalConf with | some c => c * 0.55 | none => 0)
    + (match st.dateConf with | some c => c * 0.20 | none => 0)
    + (match st.vknConf with | some c => c * 0.25 | none => 0)
  let penalty := st.warnings.foldl (fun a w => a + sevPenalty w) 0
  let score := max 0 (score0 - penalty)
  let oc := round2 score
  (oc, st.warnings ++ (if oc < 0.60 then [lowConfWarn oc] else []))

/-! ## Rounding and max helpers -/

theorem round2_of_mul_int (q : ℚ) (k : ℤ) (h : q * 100 = (k : ℚ)) : round2 q = q := by
  unfold round2 pyRound
  rw [h, Int.fract_intCast, if_neg (by norm_num), round_intCast]
  rw [div_eq_iff (by norm_num)]
  linarith [h]

theorem foldl_max_mem (c : ℚ) (cs : List ℚ) : cs.foldl max c ∈ c :: cs := by
  induction cs generalizing c with
  | nil => simp
  | cons b t ih =>
    rw [List.foldl_cons]
    rcases List.mem_cons.mp (ih (max c b)) with h1 | h1
    · rcases max_choice c b with h2 | h2
      · rw [h1, h2]; exact List.mem_cons_self _ _
      · rw [h1, h2]; exact List.mem_cons_of_mem _ (List.mem_cons_self _ _)
    · exact List.mem_cons_of_mem _ (List.mem_cons_of_mem _ h1)

theorem le_foldl_max (c : ℚ) (cs : List ℚ) : ∀ x ∈ c :: cs, x ≤ cs.foldl max c := by
  induction cs generalizing c with
  | nil => intro x hx; simp at hx; simp [hx]
  | cons b t ih =>
    intro x hx
    rw [List.foldl_cons]
    have hmb : max c b ≤ t.foldl max (max c b) :=
      ih (max c b) (max c b) (List.mem_cons_self _ _)
    rcases List.mem_cons.mp hx with rfl | h
    · exact le_trans (le_max_left x b) hmb
    · rcases List.mem_cons.mp h with rfl | h'
      · exact le_trans (le_max_right c x) hmb
      · exact ih (max c b) x (List.mem_cons_of_mem _ h')

/-! ## C9: TCKN acceptance and suspicion -/

/-- C9: whenever the labeled TCKN regex matched an 11-digit run, a field at
confidence exactly 0.70 is emitted iff the run does not start with '0';
a leading-zero run yields no field and exactly the `tckn_suspect` medium
warning carrying the digits, and that warning appears iff a leading-zero run
was matched. -/
theorem tckn_stage_spec (m : Option (List Char))
    (hm : ∀ s, m = some s → s.length = 11 ∧ ∀ c ∈ s, c.isDigit = true) :
    (∀ s, m = some s → s.head? ≠ some '0' →
      tcknStage m = (some ⟨s, 0.70, "keyword_tckn"⟩, [])) ∧
    (∀ s, m = some s → s.head? = some '0' →
      tcknStage m =
        (none, [⟨"tckn_suspect", "medium", "TCKN şüpheli görünüyor", [("tckn", .str s)]⟩])) ∧
    ((∃ w ∈ (tcknStage m).2, w.code = "tckn_suspect") ↔
      ∃ s, m = some s ∧ s.head? = some '0') := by
  have hf70 : ∀ s : List Char, _field s 0.70 "keyword_tckn" = ⟨s, 0.70, "keyword_tckn"⟩ := by
    intro s
    unfold _field
    rw [round2_of_mul_int (0.70 : ℚ) 70 (by norm_num)]
  rcases m with - | s
  · refine ⟨fun s h => by simp at h, fun s h => by simp at h, ?_⟩
    simp [tcknStage]
  · obtain ⟨hlen, -⟩ := hm s rfl
    have hne : s.isEmpty = false := by
      cases s with
      | nil => simp at hlen
      | cons a t => rfl
    refine ⟨?_, ?_, ?_⟩
    · rintro s' hs' hz
      obtain rfl : s = s' := by injection hs'
      have hz' : (s.head? == some '0') = false := by
        cases hh : s.head? == some '0'
        · rfl
        · exact absurd (beq_iff_eq.mp hh) hz
      simp [tcknStage, hne, hz', hf70]
    · rintro s' hs' hz
      obtain rfl : s = s' := by injection hs'
      have hz' : (s.head? == some '0') = true := beq_iff_eq.mpr hz
      simp [tcknStage, hne, hz']
    · constructor
      · rintro ⟨w, hw, hcode⟩
        by_cases hz : s.head? = some '0'
        · exact ⟨s, rfl, hz⟩
        · have hz' : (s.head? == some '0') = false := by
            cases hh : s.head? == some '0'
            · rfl
            · exact absurd (beq_iff_eq.mp hh) hz
          simp [tcknStage, hne, hz'] at hw
      · rintro ⟨s', hs', hz⟩
        obtain rfl : s = s' := by injection hs'
        have hz' : (s.head? == some '0') = true := beq_iff_eq.mpr hz
        refine ⟨⟨"tckn_suspect", "medium", "TCKN şüpheli görünüyor", [("tckn", .str s)]⟩, ?_, rfl⟩
        simp [tcknStage, hne, hz']

/-- C9 witness: a labeled leading-zero TCKN raises `tckn_suspect` and emits
no field. -/
theorem tckn_stage_spec_witness :
    tcknStage (some ("01234567890".data)) =
      (none, [⟨"tckn_suspect", "medium", "TCKN şüpheli görünüyor",
        [("tckn", .str ("01234567890".data))]⟩]) :=
  (tckn_stage_spec (some ("01234567890".data))
    (fun s hs => by injection hs with h; rw [← h]; exact ⟨by decide, by decide⟩)).2.1
    ("01234567890".data) rfl (by decide)

/-! ## C10: date confidence is path-independent -/

/-- C10: whichever of the three global date patterns or the label-proximity
fallback produced the date, the emitted field's confidence is exactly 0.75;
the extraction path only changes the source tag. -/
theorem date_confidence_const (text : List Char) (o1 o2 o3 olab : Option (List Char))
    (f : FieldRec (List Char)) (hf : (dateStage text o1 o2 o3 olab).1 = some f) :
    f.confidence = 0.75 := by
  have h75 : round2 (0.75 : ℚ) = 0.75 := round2_of_mul_int (0.75 : ℚ) 75 (by norm_num)
  rcases o1 with - | d
  · rcases o2 with - | d
    · rcases o3 with - | d
      · rcases olab with - | d
        · simp [dateStage] at hf
        · obtain rfl : _field d 0.75 "label_based_date" = f := by
            simpa [dateStage] using hf
          simpa [_field] using h75
      · obtain rfl : _field d 0.75 "pattern_date_dd.mm.yy" = f := by
          simpa [dateStage] using hf
        simpa [_field] using h75
    · obtain rfl : _field d 0.75 "pattern_date_yyyy-mm-dd" = f := by
        simpa [dateStage] using hf
      simpa [_field] using h75
  · obtain rfl : _field d 0.75 "pattern_date_dd.mm.yyyy" = f := by
      simpa [dateStage] using hf
    simpa [_field] using h75

/-- C10 witness: a date found by the first global pattern carries
confidence 0.75. -/
theorem date_confidence_const_witness :
    ((dateStage [] (some ("05.01.2026".data)) none none none).1.map
      fun f => f.confidence) = some 0.75 := by
  have h := date_confidence_const [] (some ("05.01.2026".data)) none none none
    (_field ("05.01.2026".data) 0.75 "pattern_date_dd.mm.yyyy") rfl
  simp [dateStage, h]

/-! ## C5: total fallback to the maximum candidate -/

/-- C5: when neither labeled total pattern matched, a non-empty candidate
pool yields the maximum candidate at confidence 0.55 with the
`total_fallback_max_amount` medium warning carrying the candidates, the
selected value and evidence lines; an empty pool yields no field and the
high-severity `total_not_found` warning. -/
theorem total_fallback_spec (text : List Char) (amounts : List ℚ) :
    (amounts = [] →
      totalStage text none amounts =
        (none, [⟨"total_not_found", "high", "Toplam tutar bulunamadı", []⟩])) ∧
    (amounts ≠ [] →
      ∃ m, m ∈ amounts ∧ (∀ x ∈ amounts, x ≤ m) ∧
        totalStage text none amounts =
          (some ⟨m, 0.55, "heuristic_max_amount"⟩,
           [⟨"total_fallback_max_amount", "medium", "Toplam tutar max(amounts) ile seçildi",
             [("amount_candidates", .qs amounts), ("selected_total", .num m),
              ("evidence_lines", .lns (_find_lines_containing_amount text m 3))]⟩])) := by
  constructor
  · rintro rfl
    rfl
  · intro hne
    rcases amounts with - | ⟨c, cs⟩
    · exact absurd rfl hne
    · refine ⟨cs.foldl max c, foldl_max_mem c cs, le_foldl_max c cs, ?_⟩
      have h55 : _field (cs.foldl max c) 0.55 "heuristic_max_amount"
          = ⟨cs.foldl max c, 0.55, "heuristic_max_amount"⟩ := by
        unfold _field
        rw [round2_of_mul_int (0.55 : ℚ) 55 (by norm_num)]
      simp [totalStage, h55]

/-- C5 witness: empty candidate pool, no labeled match. -/
theorem total_fallback_spec_witness :
    totalStage [] none [] =
      (none, [⟨"total_not_found", "high", "Toplam tutar bulunamadı", []⟩]) :=
  (total_fallback_spec [] []).1 rfl

/-! ## C2: amount consistency check -/

/-- C2: with subtotal, VAT and total all present, the check compares
`|subtotal + vat − total|` against `max(1, total*0.01)`; within tolerance the
three confidences are boosted by +0.10/+0.10/+0.15 capped at 1.0 with no
warning, otherwise all three fields are left unchanged and the high-severity
`amounts_inconsistent` warning carrying the three values is appended. -/
theorem consistency_check_spec (sf vf tf : FieldRec ℚ) :
    (|sf.value + vf.value - tf.value| ≤ max 1 (tf.value * 0.01) →
      consistencyStage (some sf) (some vf) (some tf) =
        (some { sf with confidence := min 1 (sf.confidence + 0.10) },
         some { vf with confidence := min 1 (vf.confidence + 0.10) },
         some { tf with confidence := min 1 (tf.confidence + 0.15) }, [])) ∧
    (¬ |sf.value + vf.value - tf.value| ≤ max 1 (tf.value * 0.01) →
      consistencyStage (some sf) (some vf) (some tf) =
        (some sf, some vf, some tf,
         [⟨"amounts_inconsistent", "high", "Ara toplam + KDV toplamı genel toplam ile uyuşmuyor",
           [("subtotal", .num sf.value), ("vat", .num vf.value), ("total", .num tf.value)]⟩])) := by
  constructor <;> intro h <;> simp [consistencyStage, h]

/-- C2 witness: the spec's failing example subtotal=1000.00, vat=180.00,
total=1500.00 raises `amounts_inconsistent` and leaves confidences
untouched. -/
theorem consistency_check_spec_witness :
    consistencyStage (some ⟨1000, 0.85, "keyword_subtotal"⟩) (some ⟨180, 0.80, "keyword_vat"⟩)
        (some ⟨1500, 0.90, "keyword_total"⟩) =
      (some ⟨1000, 0.85, "keyword_subtotal"⟩, some ⟨180, 0.80, "keyword_vat"⟩,
       some ⟨1500, 0.90, "keyword_total"⟩,
       [⟨"amounts_inconsistent", "high", "Ara toplam + KDV toplamı genel toplam ile uyuşmuyor",
         [("subtotal", .num 1000), ("vat", .num 180), ("total", .num 1500)]⟩]) := by
  refine (consistency_check_spec ⟨1000, 0.85, "keyword_subtotal"⟩ ⟨180, 0.80, "keyword_vat"⟩
      ⟨1500, 0.90, "keyword_total"⟩).2 ?_
  rw [show ((⟨1000, 0.85, "keyword_subtotal"⟩ : FieldRec ℚ).value
      + (⟨180, 0.80, "keyword_vat"⟩ : FieldRec ℚ).value
      - (⟨1500, 0.90, "keyword_total"⟩ : FieldRec ℚ).value) = -320 from by norm_num]
  rw [show ((⟨1500, 0.90, "keyword_total"⟩ : FieldRec ℚ).value * 0.01) = 15 from by norm_num]
  rw [max_eq_right (show (1 : ℚ) ≤ 15 by norm_num)]
  rw [abs_of_nonpos (by norm_num)]
  norm_num

/-! ## C1: overall confidence -/

theorem penalty_foldl (ws : List Warning) (a : ℚ) :
    ws.foldl (fun acc w => acc + sevPenalty w) a =
      a + (0.20 * ((ws.filter fun w => w.severity == "high").length : ℚ)
        + 0.10 * ((ws.filter fun w => w.severity == "medium").length : ℚ)
        + 0.05 * ((ws.filter fun w => w.severity == "low").length : ℚ)) := by
  induction ws generalizing a with
  | nil => simp
  | cons w t ih =>
    rw [List.foldl_cons, ih]
    have keep : ∀ (sev : String), (w.severity == sev) = true →
        (w :: t).filter (fun x => x.severity == sev) =
          w :: t.filter fun x => x.severity == sev := by
      intro sev h
      simp [List.filter_cons, h]
    have skip : ∀ (sev : String), (w.severity == sev) = false →
        (w :: t).filter (fun x => x.severity == sev) =
          t.filter fun x => x.severity == sev := by
      intro sev h
      simp [List.filter_cons, h]
    by_cases h1 : w.severity = "high"
    · rw [keep "high" (beq_iff_eq.mpr h1), skip "medium" (by rw [h1]; decide),
        skip "low" (by rw [h1]; decide), List.length_cons,
        show sevPenalty w = (0.20 : ℚ) from by simp [sevPenalty, h1]]
      push_cast
      ring
    · by_cases h2 : w.severity = "medium"
      · rw [skip "high" (by rw [h2]; decide), keep "medium" (beq_iff_eq.mpr h2),
          skip "low" (by rw [h2]; decide), List.length_cons,
          show sevPenalty w = (0.10 : ℚ) from by simp [sevPenalty, h1, h2]]
        push_cast
        ring
      · by_cases h3 : w.severity = "low"
        · rw [skip "high" (by rw [h3]; decide), skip "medium" (by rw [h3]; decide),
            keep "low" (beq_iff_eq.mpr h3), List.length_cons,
            show sevPenalty w = (0.05 : ℚ) from by simp [sevPenalty, h1, h2, h3]]
          push_cast
          ring
        · have hb : ∀ (sev : String), w.severity ≠ sev → (w.severity == sev) = false := by
            intro sev hs
            cases hh : w.severity == sev
            · rfl
            · exact absurd (beq_iff_eq.mp hh) hs
          rw [skip "high" (hb _ h1), skip "medium" (hb _ h2), skip "low" (hb _ h3),
            show sevPenalty w = 0 from by simp [sevPenalty, h1, h2, h3]]
          ring

/-- C1: the overall confidence equals the weighted sum of the present
`total_including_vat` (×0.55), `date` (×0.20) and `vkn` (×0.25) confidences
(absent fields contribute 0), minus 0.20/0.10/0.05 per high/medium/low
warning accumulated before scoring, floored at 0 and rounded to two
decimals; and `overall_confidence_low` carrying the score is appended to the
warnings exactly when that rounded score is below 0.60, after the score is
fixed, so the reported overall confidence is unchanged by it. -/
theorem overall_confidence_spec (st : ScoreState) :
    (scoringStage st).1 =
      round2 (max 0
        ((match st.totalConf with | some c => c * 0.55 | none => 0)
          + (match st.dateConf with | some c => c * 0.20 | none => 0)
          + (match st.vknConf with | some c => c * 0.25 | none => 0)
          - (0.20 * ((st.warnings.filter fun w => w.severity == "high").length : ℚ)
            + 0.10 * ((st.warnings.filter fun w => w.severity == "medium").length : ℚ)
            + 0.05 * ((st.warnings.filter fun w => w.severity == "low").length : ℚ)))) ∧
    (scoringStage st).2 =
      st.warnings ++
        (if (scoringStage st).1 < 0.60 then [lowConfWarn (scoringStage st).1] else []) := by
  constructor
  · unfold scoringStage
    dsimp only
    rw [penalty_foldl st.warnings 0, zero_add]
  · rfl

/-! ## Normalizer lemmas (C7/C8) -/

theorem collapseRuns_nil (p : Char → Bool) (rep : Char) : collapseRuns p rep [] = [] := rfl

theorem collapseRuns_two (p : Char → Bool) (rep a b : Char) (cs : List Char) :
    collapseRuns p rep (a :: b :: cs) =
      if p a && p b then collapseRuns p rep (b :: cs)
      else (if p a then rep else a) :: collapseRuns p rep (b :: cs) := rfl

theorem collapseRuns_head? (p : Char → Bool) (rep : Char) (a : Char) (l : List Char) :
    (collapseRuns p rep (a :: l)).head? = some (if p a then rep else a) := by
  induction l generalizing a with
  | nil => simp [collapseRuns]
  | cons b cs ih =>
    rw [collapseRuns_two]
    by_cases hab : (p a && p b) = true
    · rw [if_pos hab, ih b]
      obtain ⟨ha, hb⟩ : p a = true ∧ p b = true := by simpa using hab
      rw [if_pos ha, if_pos hb]
    · rw [if_neg hab]
      rfl

theorem collapseRuns_chain (p : Char → Bool) (rep : Char) (l : List Char) :
    List.Chain' (fun x y => ¬(p x = true ∧ p y = true)) (collapseRuns p rep l) := by
  induction l with
  | nil => simp [collapseRuns]
  | cons a t ih =>
    cases t with
    | nil =>
      simp only [collapseRuns]
      exact List.chain'_singleton _
    | cons b cs =>
      rw [collapseRuns_two]
      by_cases hab : (p a && p b) = true
      · rw [if_pos hab]
        exact ih
      · rw [if_neg hab]
        rw [show collapseRuns p rep (b :: cs) =
          (if p b then rep else b) :: (collapseRuns p rep (b :: cs)).tail from by
            cases hcb : collapseRuns p rep (b :: cs) with
            | nil => exact absurd (congrArg List.head? hcb) (by rw [collapseRuns_head?]; simp)
            | cons x xs =>
              have := collapseRuns_head? p rep b cs
              rw [hcb] at this
              simp only [List.head?_cons, Option.some_inj] at this
              rw [this]
              rfl]
        rw [List.chain'_cons]
        constructor
        · by_cases ha : p a = true
          · have hb : p b = false := by
              cases hpb : p b
              · rfl
              · exact absurd (by rw [ha, hpb]; rfl) hab
            rw [if_pos ha, if_neg (by rw [hb]; exact Bool.false_ne_true)]
            rintro ⟨-, h2⟩
            rw [hb] at h2
            exact Bool.false_ne_true h2
          · rw [if_neg ha]
            rintro ⟨h1, -⟩
            exact ha h1
        · rw [show (if p b then rep else b) :: (collapseRuns p rep (b :: cs)).tail
              = collapseRuns p rep (b :: cs) from by
            cases hcb : collapseRuns p rep (b :: cs) with
            | nil => exact absurd (congrArg List.head? hcb) (by rw [collapseRuns_head?]; simp)
            | cons x xs =>
              have := collapseRuns_head? p rep b cs
              rw [hcb] at this
              simp only [List.head?_cons, Option.some_inj] at this
              rw [this]
              rfl]
          exact ih

theorem collapseRuns_cons_shape (p : Char → Bool) (rep : Char) (b : Char) (cs : List Char) :
    collapseRuns p rep (b :: cs) =
      (if p b then rep else b) :: (collapseRuns p rep (b :: cs)).tail := by
  cases hcb : collapseRuns p rep (b :: cs) with
  | nil => exact absurd (congrArg List.head? hcb) (by rw [collapseRuns_head?]; simp)
  | cons x xs =>
    have := collapseRuns_head? p rep b cs
    rw [hcb] at this
    simp only [List.head?_cons, Option.some_inj] at this
    rw [this]
    rfl

theorem collapseRuns_mem {p : Char → Bool} {rep : Char} {l : List Char} {c : Char}
    (h : c ∈ collapseRuns p rep l) : c ∈ l ∨ c = rep := by
  induction l with
  | nil => simp [collapseRuns] at h
  | cons a t ih =>
    cases t with
    | nil =>
      simp only [collapseRuns, List.mem_singleton] at h
      by_cases ha : p a = true
      · rw [if_pos ha] at h
        exact Or.inr h
      · rw [if_neg ha] at h
        exact Or.inl (by simp [h])
    | cons b cs =>
      rw [collapseRuns_two] at h
      by_cases hab : (p a && p b) = true
      · rw [if_pos hab] at h
        rcases ih h with h1 | h1
        · exact Or.inl (List.mem_cons_of_mem _ h1)
        · exact Or.inr h1
      · rw [if_neg hab] at h
        rcases List.mem_cons.mp h with h1 | h1
        · by_cases ha : p a = true
          · rw [if_pos ha] at h1
            exact Or.inr h1
          · rw [if_neg ha] at h1
            exact Or.inl (by simp [h1])
        · rcases ih h1 with h2 | h2
          · exact Or.inl (List.mem_cons_of_mem _ h2)
          · exact Or.inr h2

theorem collapseRuns_p_eq_rep {p : Char → Bool} {rep : Char} {l : List Char} {c : Char}
    (h : c ∈ collapseRuns p rep l) (hp : p c = true) : c = rep := by
  induction l with
  | nil => simp [collapseRuns] at h
  | cons a t ih =>
    cases t with
    | nil =>
      simp only [collapseRuns, List.mem_singleton] at h
      by_cases ha : p a = true
      · rw [if_pos ha] at h
        exact h
      · rw [if_neg ha] at h
        exact absurd (h ▸ hp) ha
    | cons b cs =>
      rw [collapseRuns_two] at h
      by_cases hab : (p a && p b) = true
      · rw [if_pos hab] at h
        exact ih h
      · rw [if_neg hab] at h
        rcases List.mem_cons.mp h with h1 | h1
        · by_cases ha : p a = true
          · rw [if_pos ha] at h1
            exact h1
          · rw [if_neg ha] at h1
            exact absurd (h1 ▸ hp) ha
        · exact ih h1

theorem collapseRuns_eq_self {p : Char → Bool} {rep : Char} {l : List Char}
    (hch : List.Chain' (fun x y => ¬(p x = true ∧ p y = true)) l)
    (hall : ∀ c ∈ l, p c = true → c = rep) : collapseRuns p rep l = l := by
  induction l with
  | nil => rfl
  | cons a t ih =>
    cases t with
    | nil =>
      simp only [collapseRuns]
      by_cases ha : p a = true
      · rw [if_pos ha, hall a (by simp) ha]
      · rw [if_neg ha]
    | cons b cs =>
      rw [collapseRuns_two]
      have hnab : ¬(p a = true ∧ p b = true) := (List.chain'_cons.mp hch).1
      have hab : (p a && p b) = false := by
        cases hpa : p a
        · rfl
        · cases hpb : p b
          · rfl
          · exact absurd ⟨hpa, hpb⟩ hnab
      rw [if_neg (by rw [hab]; exact Bool.false_ne_true)]
      have hrest : collapseRuns p rep (b :: cs) = b :: cs :=
        ih (List.chain'_cons.mp hch).2 fun c hc => hall c (List.mem_cons_of_mem _ hc)
      rw [hrest]
      by_cases ha : p a = true
      · rw [if_pos ha, hall a (by simp) ha]
      · rw [if_neg ha]

theorem collapseRuns_preserves_chain {p q : Char → Bool} {rep : Char} {l : List Char}
    (hq : q rep = false)
    (hch : List.Chain' (fun x y => ¬(q x = true ∧ q y = true)) l) :
    List.Chain' (fun x y => ¬(q x = true ∧ q y = true)) (collapseRuns p rep l) := by
  induction l with
  | nil => exact hch
  | cons a t ih =>
    cases t with
    | nil =>
      simp only [collapseRuns]
      exact List.chain'_singleton _
    | cons b cs =>
      have htail := ih (List.chain'_cons.mp hch).2
      rw [collapseRuns_two]
      by_cases hab : (p a && p b) = true
      · rw [if_pos hab]
        exact htail
      · rw [if_neg hab]
        rw [collapseRuns_cons_shape p rep b cs] at htail ⊢
        rw [List.chain'_cons]
        refine ⟨?_, htail⟩
        by_cases ha : p a = true
        · rw [if_pos ha]
          rintro ⟨h1, -⟩
          rw [hq] at h1
          exact Bool.false_ne_true h1
        · rw [if_neg ha]
          by_cases hb : p b = true
          · rw [if_pos hb]
            rintro ⟨-, h2⟩
            rw [hq] at h2
            exact Bool.false_ne_true h2
          · rw [if_neg hb]
            exact (List.chain'_cons.mp hch).1

theorem filter_cons_ws {a : Char} (t : List Char) (h : isPyWs a = true) :
    (a :: t).filter (fun c => !isPyWs c) = t.filter fun c => !isPyWs c := by
  rw [List.filter_cons]
  rw [show (!isPyWs a) = false from by rw [h]; rfl]
  exact if_neg Bool.false_ne_true

theorem filter_cons_not_ws {a : Char} (t : List Char) (h : isPyWs a = false) :
    (a :: t).filter (fun c => !isPyWs c) = a :: t.filter fun c => !isPyWs c := by
  rw [List.filter_cons]
  rw [show (!isPyWs a) = true from by rw [h]; rfl]
  exact if_pos rfl

theorem collapseRuns_filter {p : Char → Bool} {rep : Char} (l : List Char)
    (hws : ∀ c, p c = true → isPyWs c = true) (hrep : isPyWs rep = true) :
    (collapseRuns p rep l).filter (fun c => !isPyWs c) = l.filter fun c => !isPyWs c := by
  induction l with
  | nil => rfl
  | cons a t ih =>
    cases t with
    | nil =>
      simp only [collapseRuns]
      by_cases ha : p a = true
      · rw [if_pos ha, filter_cons_ws _ hrep, filter_cons_ws _ (hws a ha)]
      · rw [if_neg ha]
    | cons b cs =>
      rw [collapseRuns_two]
      by_cases hab : (p a && p b) = true
      · rw [if_pos hab]
        have ha : p a = true := by
          cases hpa : p a
          · rw [hpa] at hab; exact absurd hab (by simp)
          · rfl
        rw [ih, filter_cons_ws _ (hws a ha)]
      · rw [if_neg hab]
        by_cases ha : p a = true
        · rw [if_pos ha, filter_cons_ws _ hrep, filter_cons_ws _ (hws a ha)]
          exact ih
        · rw [if_neg ha]
          cases hwa : isPyWs a
          · rw [filter_cons_not_ws _ hwa, filter_cons_not_ws _ hwa, ih]
          · rw [filter_cons_ws _ hwa, filter_cons_ws _ hwa, ih]

theorem replaceCR_no_cr (l : List Char) : '\r' ∉ replaceCR l := by
  intro h
  obtain ⟨c, -, hc⟩ := List.mem_map.mp h
  by_cases hcr : c = '\r'
  · rw [if_pos hcr] at hc
    exact absurd hc (by decide)
  · rw [if_neg hcr] at hc
    exact hcr hc

theorem replaceCR_eq_self {l : List Char} (h : '\r' ∉ l) : replaceCR l = l :=
  map_eq_self_of_forall fun c hc => if_neg fun hcr => h (by rw [← hcr]; exact hc)

theorem replaceCR_filter (l : List Char) :
    (replaceCR l).filter (fun c => !isPyWs c) = l.filter fun c => !isPyWs c := by
  induction l with
  | nil => rfl
  | cons a t ih =>
    show ((if a = '\r' then '\n' else a) :: replaceCR t).filter _ = _
    by_cases ha : a = '\r'
    · rw [if_pos ha]
      rw [filter_cons_ws _ (by decide), ha, filter_cons_ws _ (by decide), ih]
    · rw [if_neg ha]
      cases hwa : isPyWs a
      · rw [filter_cons_not_ws _ hwa, filter_cons_not_ws _ hwa, ih]
      · rw [filter_cons_ws _ hwa, filter_cons_ws _ hwa, ih]

theorem dropWhile_head?_not (p : Char → Bool) (l : List Char) :
    ∀ c ∈ (l.dropWhile p).head?, p c = false := by
  induction l with
  | nil => intro c hc; simp at hc
  | cons a t ih =>
    rw [List.dropWhile_cons]
    by_cases ha : p a = true
    · rw [if_pos ha]
      exact ih
    · rw [if_neg ha]
      intro c hc
      simp only [List.head?_cons, Option.mem_def, Option.some_inj] at hc
      rw [← hc]
      cases hpa : p a
      · rfl
      · exact absurd hpa ha

theorem dropWhile_filter_ws (l : List Char) :
    (l.dropWhile isPyWs).filter (fun c => !isPyWs c) = l.filter fun c => !isPyWs c := by
  induction l with
  | nil => rfl
  | cons a t ih =>
    rw [List.dropWhile_cons]
    cases hwa : isPyWs a
    · rw [if_neg Bool.false_ne_true]
    · rw [if_pos rfl, ih, filter_cons_ws _ hwa]

theorem filter_reverse_ws (l : List Char) :
    l.reverse.filter (fun c => !isPyWs c) = (l.filter fun c => !isPyWs c).reverse := by
  induction l with
  | nil => rfl
  | cons a t ih =>
    rw [List.reverse_cons, List.filter_append, ih,
      show ([a] : List Char) = a :: [] from rfl]
    cases hwa : isPyWs a
    · rw [filter_cons_not_ws _ hwa, filter_cons_not_ws _ hwa, List.filter_nil,
        List.reverse_cons]
    · rw [filter_cons_ws _ hwa, filter_cons_ws _ hwa, List.filter_nil, List.append_nil]

theorem pyStrip_filter (l : List Char) :
    (pyStrip l).filter (fun c => !isPyWs c) = l.filter fun c => !isPyWs c := by
  unfold pyStrip
  rw [filter_reverse_ws, dropWhile_filter_ws, filter_reverse_ws, dropWhile_filter_ws,
    List.reverse_reverse]

theorem getLast?_append_right (s2 : List Char) {m : List Char} (hm : m ≠ []) :
    (s2 ++ m).getLast? = m.getLast? := by
  rw [List.getLast?_append]
  cases h2 : m.getLast? with
  | none => exact absurd (List.getLast?_eq_none_iff.mp h2) hm
  | some y => rfl

theorem pyStrip_head?_not (l : List Char) : ∀ c ∈ (pyStrip l).head?, isPyWs c = false := by
  intro c hc
  unfold pyStrip at hc
  rw [List.head?_reverse] at hc
  have hne : (l.dropWhile isPyWs).reverse.dropWhile isPyWs ≠ [] := by
    intro h0
    rw [h0] at hc
    simp at hc
  obtain ⟨s, hs⟩ := @List.dropWhile_suffix Char ((l.dropWhile isPyWs).reverse) isPyWs
  have h3 := getLast?_append_right s hne
  rw [hs] at h3
  rw [← h3, List.getLast?_reverse] at hc
  exact dropWhile_head?_not isPyWs l c hc

theorem pyStrip_getLast?_not (l : List Char) :
    ∀ c ∈ (pyStrip l).getLast?, isPyWs c = false := by
  intro c hc
  unfold pyStrip at hc
  rw [List.getLast?_reverse] at hc
  exact dropWhile_head?_not isPyWs _ c hc

theorem pyStrip_eq_self_of_ends {l : List Char}
    (hh : ∀ c ∈ l.head?, isPyWs c = false) (hl : ∀ c ∈ l.getLast?, isPyWs c = false) :
    pyStrip l = l := by
  have key : ∀ (m : List Char), (∀ c ∈ m.head?, isPyWs c = false) → m.dropWhile isPyWs = m := by
    intro m hm
    cases m with
    | nil => rfl
    | cons a t =>
      rw [List.dropWhile_cons, if_neg (by rw [hm a (by simp)]; exact Bool.false_ne_true)]
  unfold pyStrip
  rw [key l hh, key l.reverse (by intro c hc; rw [List.head?_reverse] at hc; exact hl c hc)]
  exact List.reverse_reverse l

theorem pyStrip_isPart (l : List Char) : pyStrip l <:+: l := by
  obtain ⟨u, hu⟩ := @List.dropWhile_suffix Char l isPyWs
  obtain ⟨s, hs⟩ := @List.dropWhile_suffix Char ((l.dropWhile isPyWs).reverse) isPyWs
  refine ⟨u, s.reverse, ?_⟩
  unfold pyStrip
  have hkey : ((l.dropWhile isPyWs).reverse.dropWhile isPyWs).reverse ++ s.reverse
      = l.dropWhile isPyWs := by
    have h2 := congrArg List.reverse hs
    rw [List.reverse_append, List.reverse_reverse] at h2
    exact h2
  rw [List.append_assoc, hkey, hu]

theorem chain_of_middle {R : Char → Char → Prop} {l l' : List Char}
    (h : List.Chain' R l) (hinf : l' <:+: l) : List.Chain' R l' := by
  obtain ⟨s, t, rfl⟩ := hinf
  rw [List.append_assoc] at h
  exact (List.chain'_append.mp ((List.chain'_append.mp h).2.1)).1

theorem mem_of_middle {l l' : List Char} {c : Char} (hc : c ∈ l') (hinf : l' <:+: l) :
    c ∈ l := by
  obtain ⟨s, t, rfl⟩ := hinf
  exact List.mem_append.mpr (Or.inl (List.mem_append.mpr (Or.inr hc)))

theorem isSpTab_ws {c : Char} (h : isSpTab c = true) : isPyWs c = true := by
  simp only [isSpTab, Bool.or_eq_true] at h
  rcases h with h1 | h1 <;> rw [beq_iff_eq.mp h1] <;> decide

theorem isNlChar_ws {c : Char} (h : isNlChar c = true) : isPyWs c = true := by
  simp only [isNlChar] at h
  rw [beq_iff_eq.mp h]
  decide

theorem clean_facts (l : List Char) :
    List.Chain' (fun x y => ¬(isSpTab x = true ∧ isSpTab y = true)) (_clean l) ∧
    List.Chain' (fun x y => ¬(isNlChar x = true ∧ isNlChar y = true)) (_clean l) ∧
    (∀ c ∈ _clean l, isSpTab c = true → c = ' ') ∧
    ('\r' ∉ _clean l) ∧
    (∀ c ∈ (_clean l).head?, isPyWs c = false) ∧
    (∀ c ∈ (_clean l).getLast?, isPyWs c = false) := by
  have hinf : _clean l <:+: collapseRuns isNlChar '\n' (collapseRuns isSpTab ' ' (replaceCR l)) :=
    pyStrip_isPart _
  have hspB : List.Chain' (fun x y => ¬(isSpTab x = true ∧ isSpTab y = true))
      (collapseRuns isNlChar '\n' (collapseRuns isSpTab ' ' (replaceCR l))) :=
    collapseRuns_preserves_chain (by decide)
      (collapseRuns_chain isSpTab ' ' (replaceCR l))
  have hnlB : List.Chain' (fun x y => ¬(isNlChar x = true ∧ isNlChar y = true))
      (collapseRuns isNlChar '\n' (collapseRuns isSpTab ' ' (replaceCR l))) :=
    collapseRuns_chain isNlChar '\n' _
  have hrepB : ∀ c ∈ collapseRuns isNlChar '\n' (collapseRuns isSpTab ' ' (replaceCR l)),
      isSpTab c = true → c = ' ' := by
    intro c hc hsp
    rcases collapseRuns_mem hc with h1 | h1
    · exact collapseRuns_p_eq_rep h1 hsp
    · rw [h1] at hsp
      exact absurd hsp (by decide)
  have hcrB : '\r' ∉ collapseRuns isNlChar '\n' (collapseRuns isSpTab ' ' (replaceCR l)) := by
    intro h
    rcases collapseRuns_mem h with h1 | h1
    · rcases collapseRuns_mem h1 with h2 | h2
      · exact replaceCR_no_cr l h2
      · exact absurd h2 (by decide)
    · exact absurd h1 (by decide)
  exact ⟨chain_of_middle hspB hinf, chain_of_middle hnlB hinf,
    fun c hc hsp => hrepB c (mem_of_middle hc hinf) hsp,
    fun h => hcrB (mem_of_middle h hinf),
    pyStrip_head?_not _, pyStrip_getLast?_not _⟩

/-- C8: the normalizer is idempotent: `_clean (_clean x) = _clean x` for
every input. -/
theorem clean_idempotent (l : List Char) : _clean (_clean l) = _clean l := by
  obtain ⟨hsp, hnl, hrep, hcr, hh, hl2⟩ := clean_facts l
  have s1 : replaceCR (_clean l) = _clean l := replaceCR_eq_self hcr
  have s2 : collapseRuns isSpTab ' ' (_clean l) = _clean l :=
    collapseRuns_eq_self hsp hrep
  have s3 : collapseRuns isNlChar '\n' (_clean l) = _clean l :=
    collapseRuns_eq_self hnl fun c _ hn => beq_iff_eq.mp (by simpa [isNlChar] using hn)
  have s4 : pyStrip (_clean l) = _clean l := pyStrip_eq_self_of_ends hh hl2
  show pyStrip (collapseRuns isNlChar '\n' (collapseRuns isSpTab ' ' (replaceCR (_clean l))))
    = _clean l
  rw [s1, s2, s3, s4]

/-- C7 counterexample: on `"a\n\n\nb"` — a run of two blank lines — the claim
predicts `"a\n\nb"` (one blank line kept), but `_clean` collapses the whole
newline run to a single newline, returning `"a\nb"` with no blank line. -/
theorem clean_blank_lines_counterexample :
    _clean ("a\n\n\nb".data) = "a\nb".data ∧ "a\nb".data ≠ "a\n\nb".data := by decide


/-! ## C7 revision: full functional characterization of the normalizer -/

theorem bool_eq_false {b : Bool} (h : ¬ b = true) : b = false := by
  cases hb : b
  · rfl
  · exact absurd hb h

theorem dropWhile_length_le (p : Char → Bool) (l : List Char) :
    (l.dropWhile p).length ≤ l.length := by
  induction l with
  | nil => exact Nat.le_refl _
  | cons a t ih =>
    rw [List.dropWhile_cons]
    by_cases ha : p a = true
    · rw [if_pos ha]
      exact Nat.le_succ_of_le ih
    · rw [if_neg ha]

/-- One pass over the text, written from the amended claim: a maximal run of
spaces/tabs becomes exactly one space, a maximal run of newlines becomes
exactly one newline, every other character is copied unchanged. -/
def cleanSpecRuns : List Char → List Char
  | [] => []
  | c :: cs =>
    if isSpTab c then ' ' :: cleanSpecRuns (cs.dropWhile isSpTab)
    else if isNlChar c then '\n' :: cleanSpecRuns (cs.dropWhile isNlChar)
    else c :: cleanSpecRuns cs
termination_by l => l.length
decreasing_by
  all_goals simp only [List.length_cons]
  all_goals first
    | exact Nat.lt_succ_of_le (dropWhile_length_le _ _)
    | exact Nat.lt_succ_self _

/-- Specification-side normalizer, from the amended claim: unify line endings
(every carriage return becomes a newline), collapse each space/tab run to one
space and each newline run to one newline in a single pass, then trim
whitespace from both ends. -/
def cleanSpec (l : List Char) : List Char :=
  pyStrip (cleanSpecRuns (l.map fun c => if c = '\r' then '\n' else c))

theorem cleanSpecRuns_nil : cleanSpecRuns [] = [] := by
  simp [cleanSpecRuns]

theorem cleanSpecRuns_sp {c : Char} (cs : List Char) (h : isSpTab c = true) :
    cleanSpecRuns (c :: cs) = ' ' :: cleanSpecRuns (cs.dropWhile isSpTab) := by
  simp only [cleanSpecRuns]
  rw [if_pos h]

theorem cleanSpecRuns_nl {c : Char} (cs : List Char) (hs : isSpTab c = false)
    (h : isNlChar c = true) :
    cleanSpecRuns (c :: cs) = '\n' :: cleanSpecRuns (cs.dropWhile isNlChar) := by
  simp only [cleanSpecRuns]
  rw [if_neg (by rw [hs]; exact Bool.false_ne_true), if_pos h]

theorem cleanSpecRuns_other {c : Char} (cs : List Char) (hs : isSpTab c = false)
    (h : isNlChar c = false) :
    cleanSpecRuns (c :: cs) = c :: cleanSpecRuns cs := by
  simp only [cleanSpecRuns]
  rw [if_neg (by rw [hs]; exact Bool.false_ne_true),
    if_neg (by rw [h]; exact Bool.false_ne_true)]

theorem collapseRuns_head_run {p : Char → Bool} {rep : Char} (c : Char) (l : List Char)
    (hc : p c = true) :
    collapseRuns p rep (c :: l) = rep :: collapseRuns p rep (l.dropWhile p) := by
  induction l generalizing c with
  | nil => simp [collapseRuns, hc]
  | cons b t ih =>
    rw [collapseRuns_two]
    by_cases hb : p b = true
    · rw [if_pos (by rw [hc, hb]; rfl), ih b hb, List.dropWhile_cons, if_pos hb]
    · rw [if_neg (by rw [bool_eq_false hb, Bool.and_false]; exact Bool.false_ne_true),
        List.dropWhile_cons, if_neg hb, if_pos hc]

theorem collapseRuns_head_not {p : Char → Bool} {rep : Char} (c : Char) (l : List Char)
    (hc : p c = false) :
    collapseRuns p rep (c :: l) = c :: collapseRuns p rep l := by
  cases l with
  | nil => simp [collapseRuns, hc]
  | cons b t =>
    rw [collapseRuns_two,
      if_neg (by rw [hc, Bool.false_and]; exact Bool.false_ne_true),
      if_neg (by rw [hc]; exact Bool.false_ne_true)]

theorem collapseRuns_dropWhile_comm {p q : Char → Bool} {rep : Char} (l : List Char)
    (hdisj : ∀ x, q x = true → p x = false) (hqrep : q rep = false) :
    (collapseRuns p rep l).dropWhile q = collapseRuns p rep (l.dropWhile q) := by
  induction l with
  | nil => rfl
  | cons c t ih =>
    by_cases hqc : q c = true
    · rw [collapseRuns_head_not c t (hdisj c hqc), List.dropWhile_cons, if_pos hqc,
        List.dropWhile_cons, if_pos hqc, ih]
    · by_cases hpc : p c = true
      · rw [collapseRuns_head_run c t hpc, List.dropWhile_cons,
          if_neg (by rw [hqrep]; exact Bool.false_ne_true),
          List.dropWhile_cons, if_neg hqc, collapseRuns_head_run c t hpc]
      · rw [collapseRuns_head_not c t (bool_eq_false hpc), List.dropWhile_cons, if_neg hqc,
          List.dropWhile_cons, if_neg hqc, collapseRuns_head_not c t (bool_eq_false hpc)]

theorem collapse_pair_eq_spec_aux (n : Nat) :
    ∀ u : List Char, u.length ≤ n →
      collapseRuns isNlChar '\n' (collapseRuns isSpTab ' ' u) = cleanSpecRuns u := by
  induction n with
  | zero =>
    intro u hu
    rw [List.length_eq_zero.mp (Nat.le_zero.mp hu), cleanSpecRuns_nil]
    rfl
  | succ n ih =>
    intro u hu
    cases u with
    | nil =>
      rw [cleanSpecRuns_nil]
      rfl
    | cons c cs =>
      rw [List.length_cons] at hu
      by_cases hsp : isSpTab c = true
      · rw [collapseRuns_head_run c cs hsp,
          collapseRuns_head_not ' ' _ (show isNlChar ' ' = false from rfl),
          ih _ (Nat.le_trans (dropWhile_length_le isSpTab cs) (Nat.le_of_succ_le_succ hu)),
          cleanSpecRuns_sp cs hsp]
      · by_cases hnl : isNlChar c = true
        · have hceq : c = '\n' := by simpa [isNlChar] using hnl
          rw [collapseRuns_head_not c cs (bool_eq_false hsp),
            collapseRuns_head_run c _ hnl,
            collapseRuns_dropWhile_comm cs
              (fun x hx => by
                have hxe : x = '\n' := by simpa [isNlChar] using hx
                rw [hxe]
                rfl)
              rfl,
            ih _ (Nat.le_trans (dropWhile_length_le isNlChar cs) (Nat.le_of_succ_le_succ hu)),
            cleanSpecRuns_nl cs (bool_eq_false hsp) hnl]
        · rw [collapseRuns_head_not c cs (bool_eq_false hsp),
            collapseRuns_head_not c _ (bool_eq_false hnl),
            ih _ (Nat.le_of_succ_le_succ hu),
            cleanSpecRuns_other cs (bool_eq_false hsp) (bool_eq_false hnl)]

theorem collapse_pair_eq_spec (u : List Char) :
    collapseRuns isNlChar '\n' (collapseRuns isSpTab ' ' u) = cleanSpecRuns u :=
  collapse_pair_eq_spec_aux u.length u (Nat.le_refl _)

/-- C7 (amended): `_clean` equals the specification normalizer `cleanSpec`:
carriage returns are unified into newlines, each maximal run of spaces/tabs
becomes exactly one space, each maximal run of two or more newlines becomes
exactly one newline — so blank lines are removed entirely, rather than one
blank line being kept as the claim stated — and whitespace is trimmed from
both ends; moreover the non-whitespace characters are preserved unchanged
and in order. -/
theorem clean_shape (l : List Char) :
    _clean l = cleanSpec l ∧
    (_clean l).filter (fun c => !isPyWs c) = l.filter (fun c => !isPyWs c) := by
  constructor
  · show pyStrip (collapseRuns isNlChar '\n' (collapseRuns isSpTab ' ' (replaceCR l))) = _
    rw [collapse_pair_eq_spec]
    rfl
  · show (pyStrip (collapseRuns isNlChar '\n'
        (collapseRuns isSpTab ' ' (replaceCR l)))).filter _ = _
    rw [pyStrip_filter, collapseRuns_filter _ (fun c h => isNlChar_ws h) (by decide),
      collapseRuns_filter _ (fun c h => isSpTab_ws h) (by decide), replaceCR_filter]

/-- C7 witness: the full characterization instantiated at a concrete input. -/
theorem clean_shape_witness :
    _clean ("a\r\n\n b\t\tc ".data) = cleanSpec ("a\r\n\n b\t\tc ".data) :=
  (clean_shape ("a\r\n\n b\t\tc ".data)).1
